import Mathlib

/-!
Verification of the stonks price-tracker against its specification.

The program is a small Rust CLI (src/main.rs). We shallowly embed its pure
computational core in Lean:

* `f64` prices are modelled as exact rationals `ℚ` (the claims under study are
  structural and order-theoretic, not about rounding). Where a claim needs the
  fact that every actual `f64` value lies in the finite representable range, we
  add the bound `f64MIN ≤ x ∧ x ≤ f64MAX` as a hypothesis, with
  `f64MAX = (2^53 - 1) * 2^971` the largest finite double and `f64MIN` its
  negation, exactly the constants `f64::MAX` / `f64::MIN` the code folds from.
* Rust `Option` becomes Lean `Option`; a possible panic is modelled by an
  outer `Option` (`none` = the call panics / the process aborts).
* The fallible provider call in `fetch_closing_data` is abstracted as an
  `Except Unit (List Quote)` argument: the code collapses every provider
  failure into one `InvalidData` error.
* The async orchestration (`join_all`) returns results in the order the
  futures were supplied, so the two fan-out stages are embedded as ordinary
  list traversals.
-/

/-- The largest finite `f64` value, `f64::MAX`, as an exact rational. -/
def f64MAX : ℚ := (2 ^ 53 - 1) * 2 ^ 971

/-- The smallest finite `f64` value, `f64::MIN = -f64::MAX`. -/
def f64MIN : ℚ := -f64MAX

/-- A provider quote: the two fields `fetch_closing_data` reads
(`q.timestamp : u64`, `q.adjclose : f64`). -/
structure Quote where
  timestamp : ℕ
  adjclose : ℚ
deriving DecidableEq, Repr

/-- `struct StockHistory { symbol: String, closes: Vec<f64> }`. -/
structure StockHistory where
  symbol : String
  closes : List ℚ
deriving DecidableEq, Repr

/-- `struct StockStats` with its five numeric fields. -/
structure StockStats where
  symbol : String
  last_price : ℚ
  pct_change : ℚ
  period_min : ℚ
  period_max : ℚ
  thirty_day_avg : ℚ
deriving DecidableEq, Repr

/-- Rust `slice::windows(n)` for `n ≥ 1`: the list of contiguous
sub-slices of length `n`, in sliding order with step 1. (The `n = 0` panic is
modelled separately in `windowsCall`.) -/
def listWindows (n : ℕ) : List ℚ → List (List ℚ)
  | [] => []
  | x :: xs =>
    if n ≤ xs.length + 1 then (x :: xs).take n :: listWindows n xs else []

/-- Rust `slice::windows(n)` including its behaviour at `n = 0`: `windows(0)`
panics (`none`); otherwise it yields the sliding windows. -/
def windowsCall (n : ℕ) (l : List ℚ) : Option (List (List ℚ)) :=
  if n = 0 then none else some (listWindows n l)

/-- `struct WindowedSMA { window_size: usize }`. -/
structure WindowedSMA where
  window_size : ℕ
deriving DecidableEq, Repr

/-- `WindowedSMA::calculate`: `Some` of the per-window arithmetic means when
the series is non-empty and `window_size > 1`, otherwise `None`. -/
def WindowedSMA.calculate (self : WindowedSMA) (series : List ℚ) : Option (List ℚ) :=
  if series ≠ [] ∧ 1 < self.window_size then
    some ((listWindows self.window_size series).map (fun w => w.sum / (w.length : ℚ)))
  else
    none

/-- `WindowedSMA::calculate` with the `windows` panic made explicit: the outer
`Option` is `none` exactly when the `series.windows(self.window_size)` call
would panic (i.e. is reached with `window_size = 0`). -/
def WindowedSMA.calculateRun (self : WindowedSMA) (series : List ℚ) :
    Option (Option (List ℚ)) :=
  if series ≠ [] ∧ 1 < self.window_size then
    match windowsCall self.window_size series with
    | none => none
    | some ws => some (some (ws.map (fun w => w.sum / (w.length : ℚ))))
  else
    some none

lemma listWindows_length (n : ℕ) (hn : 1 ≤ n) :
    ∀ l : List ℚ, (listWindows n l).length = l.length + 1 - n := by
  intro l
  induction l with
  | nil => simp [listWindows]; omega
  | cons x xs ih =>
    simp only [listWindows]
    by_cases h : n ≤ xs.length + 1
    · rw [if_pos h]
      simp only [List.length_cons, List.length]
      rw [ih]
      omega
    · rw [if_neg h]
      simp only [List.length_cons, List.length]
      omega

lemma listWindows_nil_of_short (n : ℕ) (l : List ℚ) (hn : 1 ≤ n)
    (h : l.length < n) : listWindows n l = [] := by
  have hlen := listWindows_length n hn l
  have : (listWindows n l).length = 0 := by omega
  exact List.length_eq_zero.mp this

/-- Claim C1 (as stated): on a non-empty series, both a degenerate window
`w ≤ 1` and a too-long window yield `Some []`, and `None` occurs only on the
empty series. The code refutes the `w ≤ 1` half: with `window_size = 1` and
series `[1]` it returns `None`, not `Some []`. -/
theorem windowedSMA_w1_counterexample :
    (WindowedSMA.mk 1).calculate [(1 : ℚ)] = none ∧
      (WindowedSMA.mk 1).calculate [(1 : ℚ)] ≠ some [] := by
  constructor
  · rfl
  · intro h
    simp [WindowedSMA.calculate] at h

/-- Claim C1 (amended): `WindowedSMA.calculate` returns `None` iff the series
is empty or the window size is ≤ 1; on a non-empty series with `w > 1` but
shorter than `w`, it returns `Some` of the empty sequence. -/
theorem windowedSMA_trichotomy (w : ℕ) (series : List ℚ) :
    ((WindowedSMA.mk w).calculate series = none ↔ (series = [] ∨ w ≤ 1)) ∧
      (series ≠ [] → 1 < w → series.length < w →
        (WindowedSMA.mk w).calculate series = some []) := by
  constructor
  · unfold WindowedSMA.calculate
    by_cases h : series ≠ [] ∧ 1 < (WindowedSMA.mk w).window_size
    · rw [if_pos h]
      simp only [WindowedSMA.window_size] at h
      constructor
      · intro hc; exact absurd hc (by simp)
      · intro hc
        rcases hc with hc | hc
        · exact absurd hc h.1
        · omega
    · rw [if_neg h]
      simp only [WindowedSMA.window_size] at h
      constructor
      · intro _
        by_cases hs : series = []
        · exact Or.inl hs
        · right
          by_contra hw
          exact h ⟨hs, by omega⟩
      · intro _; rfl
  · intro hne hw hlen
    unfold WindowedSMA.calculate
    rw [if_pos ⟨hne, hw⟩]
    rw [listWindows_nil_of_short w series (by omega) hlen]
    rfl

/-- Witness for `windowedSMA_trichotomy` at `w = 3`, `series = [1, 2]`. -/
theorem windowedSMA_trichotomy_witness :
    (((WindowedSMA.mk 3).calculate [(1 : ℚ), 2] = none ↔
        ([(1 : ℚ), 2] = [] ∨ 3 ≤ 1)) ∧
      ([(1 : ℚ), 2] ≠ [] → 1 < 3 → [(1 : ℚ), 2].length < 3 →
        (WindowedSMA.mk 3).calculate [(1 : ℚ), 2] = some [])) :=
  windowedSMA_trichotomy 3 [(1 : ℚ), 2]

/-- Claim C3 (as stated): for every non-empty series and every `w ≥ 1`, the
returned sequence has length `max 0 (len - w + 1)`. The code refutes the
`w = 1` case: on `[5, 7]` with window 1 it returns `None`, so no sequence of
length 2 is returned. -/
theorem windowedSMA_length_counterexample :
    ((WindowedSMA.mk 1).calculate [(5 : ℚ), 7]).map
        (fun l => (l.length : ℤ)) = none ∧
      ((WindowedSMA.mk 1).calculate [(5 : ℚ), 7]).map (fun l => (l.length : ℤ)) ≠
        some (max 0 ((2 : ℤ) - 1 + 1)) := by
  constructor
  · rfl
  · intro h
    simp [WindowedSMA.calculate] at h

/-- Claim C3 (amended): for every non-empty series and every `w > 1`,
`WindowedSMA.calculate` returns a sequence of length `max 0 (len - w + 1)`. -/
theorem windowedSMA_length (w : ℕ) (series : List ℚ) (hne : series ≠ [])
    (hw : 1 < w) :
    ((WindowedSMA.mk w).calculate series).map (fun l => (l.length : ℤ)) =
      some (max 0 ((series.length : ℤ) - w + 1)) := by
  unfold WindowedSMA.calculate
  rw [if_pos ⟨hne, hw⟩]
  have h1 : (listWindows w series).length = series.length + 1 - w :=
    listWindows_length w (by omega) series
  simp only [Option.map, List.length_map, h1]
  congr 1
  omega

/-- Witness for `windowedSMA_length` at `w = 3`, `series = [1, 2, 3, 4]`. -/
theorem windowedSMA_length_witness :
    ((WindowedSMA.mk 3).calculate [(1 : ℚ), 2, 3, 4]).map
        (fun l => (l.length : ℤ)) = some (max 0 ((4 : ℤ) - 3 + 1)) :=
  windowedSMA_length 3 [(1 : ℚ), 2, 3, 4] (by simp) (by omega)

/-- Claim C9: `WindowedSMA.calculate` is total — for every series and window
size (including 0) the run completes without panicking and agrees with the
pure `calculate`: the guard makes the panicking `windows(0)` unreachable. -/
theorem windowedSMA_total (w : ℕ) (series : List ℚ) :
    (WindowedSMA.mk w).calculateRun series =
      some ((WindowedSMA.mk w).calculate series) := by
  simp only [WindowedSMA.calculateRun, WindowedSMA.calculate, windowsCall]
  by_cases h : series ≠ [] ∧ 1 < w
  · rw [if_pos h, if_pos h, if_neg (by omega)]
  · rw [if_neg h, if_neg h]

/-- `MinPrice::calculate`: `None` on an empty series, otherwise the fold
`series.iter().fold(f64::MAX, |acc, x| acc.min(*x))`. -/
def MinPrice.calculate (series : List ℚ) : Option ℚ :=
  if series = [] then none
  else some (series.foldl min f64MAX)

/-- `MaxPrice::calculate`: `None` on an empty series, otherwise the fold
`series.iter().fold(f64::MIN, |acc, x| acc.max(*x))`. -/
def MaxPrice.calculate (series : List ℚ) : Option ℚ :=
  if series = [] then none
  else some (series.foldl max f64MIN)

/-- `PriceDiff::calculate`: `None` on an empty series, otherwise
`(last - first, if first == 0 then last - first else (last - first)/first)`. -/
def PriceDiff.calculate (series : List ℚ) : Option (ℚ × ℚ) :=
  match series with
  | [] => none
  | x :: xs =>
    let first := x
    let last := (x :: xs).getLast (List.cons_ne_nil x xs)
    let absDiff := last - first
    let pctDiff := if first = 0 then absDiff else absDiff / first
    some (absDiff, pctDiff)

lemma foldl_min_le_init : ∀ (l : List ℚ) (a : ℚ), l.foldl min a ≤ a
  | [], a => le_refl a
  | x :: xs, a => le_trans (foldl_min_le_init xs (min a x)) (min_le_left a x)

lemma foldl_min_le_mem : ∀ (l : List ℚ) (a x : ℚ), x ∈ l → l.foldl min a ≤ x := by
  intro l
  induction l with
  | nil => intro a x hx; cases hx
  | cons y ys ih =>
    intro a x hx
    rcases List.mem_cons.mp hx with h | h
    · subst h
      exact le_trans (foldl_min_le_init ys (min a x)) (min_le_right a x)
    · exact ih (min a y) x h

lemma foldl_min_eq_or_mem : ∀ (l : List ℚ) (a : ℚ),
    l.foldl min a = a ∨ l.foldl min a ∈ l := by
  intro l
  induction l with
  | nil => intro a; exact Or.inl rfl
  | cons y ys ih =>
    intro a
    rcases ih (min a y) with h | h
    · rcases le_total a y with hay | hya
      · left
        rw [List.foldl_cons, h, min_eq_left hay]
      · right
        rw [List.foldl_cons, h, min_eq_right hya]
        exact List.mem_cons_self y ys
    · right
      rw [List.foldl_cons]
      exact List.mem_cons_of_mem y h

lemma foldl_max_ge_init : ∀ (l : List ℚ) (a : ℚ), a ≤ l.foldl max a
  | [], a => le_refl a
  | x :: xs, a => le_trans (le_max_left a x) (foldl_max_ge_init xs (max a x))

lemma foldl_max_ge_mem : ∀ (l : List ℚ) (a x : ℚ), x ∈ l → x ≤ l.foldl max a := by
  intro l
  induction l with
  | nil => intro a x hx; cases hx
  | cons y ys ih =>
    intro a x hx
    rcases List.mem_cons.mp hx with h | h
    · subst h
      exact le_trans (le_max_right a x) (foldl_max_ge_init ys (max a x))
    · exact ih (max a y) x h

lemma foldl_max_eq_or_mem : ∀ (l : List ℚ) (a : ℚ),
    l.foldl max a = a ∨ l.foldl max a ∈ l := by
  intro l
  induction l with
  | nil => intro a; exact Or.inl rfl
  | cons y ys ih =>
    intro a
    rcases ih (max a y) with h | h
    · rcases le_total y a with hya | hay
      · left
        rw [List.foldl_cons, h, max_eq_left hya]
      · right
        rw [List.foldl_cons, h, max_eq_right hay]
        exact List.mem_cons_self y ys
    · right
      rw [List.foldl_cons]
      exact List.mem_cons_of_mem y h

/-- Claim C5: `MinPrice.calculate` and `MaxPrice.calculate` return `None`
exactly on the empty series; on `[x]` they return `x`; on any non-empty
series the minimum is ≤ every element and is an element, and the maximum is
≥ every element and is an element. (The series consists of finite `f64`
values, so every element lies within `[f64::MIN, f64::MAX]`.) -/
theorem minmax_spec (series : List ℚ)
    (hb : ∀ x ∈ series, f64MIN ≤ x ∧ x ≤ f64MAX) :
    (MinPrice.calculate series = none ↔ series = []) ∧
    (MaxPrice.calculate series = none ↔ series = []) ∧
    (∀ x, series = [x] →
      MinPrice.calculate series = some x ∧ MaxPrice.calculate series = some x) ∧
    (series ≠ [] → ∃ m M, MinPrice.calculate series = some m ∧
      MaxPrice.calculate series = some M ∧ m ∈ series ∧ M ∈ series ∧
      ∀ x ∈ series, m ≤ x ∧ x ≤ M) := by
  refine ⟨?_, ?_, ?_, ?_⟩
  · unfold MinPrice.calculate
    by_cases h : series = [] <;> simp [h]
  · unfold MaxPrice.calculate
    by_cases h : series = [] <;> simp [h]
  · intro x hx
    subst hx
    have hbx := hb x (by simp)
    constructor
    · unfold MinPrice.calculate
      rw [if_neg (by simp)]
      simp only [List.foldl_cons, List.foldl_nil]
      rw [min_eq_right hbx.2]
    · unfold MaxPrice.calculate
      rw [if_neg (by simp)]
      simp only [List.foldl_cons, List.foldl_nil]
      rw [max_eq_right hbx.1]
  · intro hne
    obtain ⟨x0, hx0⟩ := List.exists_mem_of_ne_nil series hne
    refine ⟨series.foldl min f64MAX, series.foldl max f64MIN, ?_, ?_, ?_, ?_, ?_⟩
    · unfold MinPrice.calculate
      rw [if_neg hne]
    · unfold MaxPrice.calculate
      rw [if_neg hne]
    · rcases foldl_min_eq_or_mem series f64MAX with h | h
      · have h1 : series.foldl min f64MAX ≤ x0 := foldl_min_le_mem series f64MAX x0 hx0
        have h2 : x0 ≤ f64MAX := (hb x0 hx0).2
        have : x0 = series.foldl min f64MAX := le_antisymm (by rw [h]; exact h2) h1
        exact this ▸ hx0
      · exact h
    · rcases foldl_max_eq_or_mem series f64MIN with h | h
      · have h1 : x0 ≤ series.foldl max f64MIN := foldl_max_ge_mem series f64MIN x0 hx0
        have h2 : f64MIN ≤ x0 := (hb x0 hx0).1
        have : x0 = series.foldl max f64MIN := le_antisymm h1 (by rw [h]; exact h2)
        exact this ▸ hx0
      · exact h
    · intro x hx
      exact ⟨foldl_min_le_mem series f64MAX x hx, foldl_max_ge_mem series f64MIN x hx⟩

/-- Witness for `minmax_spec` at `series = [1, 2]`. -/
theorem minmax_spec_witness :
    (∀ x ∈ [(1 : ℚ), 2], f64MIN ≤ x ∧ x ≤ f64MAX) ∧
    ((MinPrice.calculate [(1 : ℚ), 2] = none ↔ [(1 : ℚ), 2] = []) ∧
     (MaxPrice.calculate [(1 : ℚ), 2] = none ↔ [(1 : ℚ), 2] = []) ∧
     (∀ x, [(1 : ℚ), 2] = [x] →
       MinPrice.calculate [(1 : ℚ), 2] = some x ∧
       MaxPrice.calculate [(1 : ℚ), 2] = some x) ∧
     ([(1 : ℚ), 2] ≠ [] → ∃ m M, MinPrice.calculate [(1 : ℚ), 2] = some m ∧
       MaxPrice.calculate [(1 : ℚ), 2] = some M ∧ m ∈ [(1 : ℚ), 2] ∧
       M ∈ [(1 : ℚ), 2] ∧ ∀ x ∈ [(1 : ℚ), 2], m ≤ x ∧ x ≤ M)) := by
  have hb : ∀ x ∈ [(1 : ℚ), 2], f64MIN ≤ x ∧ x ≤ f64MAX := by
    intro x hx
    fin_cases hx <;> constructor <;> norm_num [f64MIN, f64MAX]
  exact ⟨hb, minmax_spec [(1 : ℚ), 2] hb⟩

/-- Claim C4: `PriceDiff.calculate` returns `None` exactly on the empty
series; on a non-empty series it returns `(last - first, rel)` where `rel` is
the quotient by `first` unless `first = 0`, in which case it is the absolute
difference; on a one-element series it returns `(0, 0)`. -/
theorem priceDiff_spec (series : List ℚ) :
    (PriceDiff.calculate series = none ↔ series = []) ∧
    (∀ x y, series.head? = some x → series.getLast? = some y →
      PriceDiff.calculate series =
        some (y - x, if x = 0 then y - x else (y - x) / x)) ∧
    (∀ x, series = [x] → PriceDiff.calculate series = some (0, 0)) := by
  refine ⟨?_, ?_, ?_⟩
  · cases series with
    | nil => simp [PriceDiff.calculate]
    | cons z zs => simp [PriceDiff.calculate]
  · intro x y hx hy
    cases series with
    | nil => simp at hx
    | cons z zs =>
      have hzx : z = x := by
        simpa using hx
      have hy2 : (z :: zs).getLast (List.cons_ne_nil z zs) = y := by
        have := List.getLast?_eq_getLast (z :: zs) (List.cons_ne_nil z zs)
        rw [this] at hy
        exact Option.some_injective _ hy
      subst hzx
      simp only [PriceDiff.calculate, hy2]
  · intro x hx
    subst hx
    simp [PriceDiff.calculate]

/-- Witness for `priceDiff_spec` at `series = [5]`. -/
theorem priceDiff_spec_witness :
    ((PriceDiff.calculate [(5 : ℚ)] = none ↔ [(5 : ℚ)] = []) ∧
     (∀ x y, [(5 : ℚ)].head? = some x → [(5 : ℚ)].getLast? = some y →
       PriceDiff.calculate [(5 : ℚ)] =
         some (y - x, if x = 0 then y - x else (y - x) / x)) ∧
     (∀ x, [(5 : ℚ)] = [x] → PriceDiff.calculate [(5 : ℚ)] = some (0, 0))) :=
  priceDiff_spec [(5 : ℚ)]

/-- `StockStats::new`: the Stats Assembler. `last_price` and
`thirty_day_avg` use defensive `unwrap_or` defaults, but the
`PriceDiff` / `MinPrice` / `MaxPrice` results are `.unwrap()`ed — a `None`
there panics, which the outer `Option` models as `none`. -/
def StockStats.new (symbol : String) (closes : List ℚ) : Option StockStats :=
  let last_price := closes.getLast?.getD 0
  match PriceDiff.calculate closes, MinPrice.calculate closes,
      MaxPrice.calculate closes with
  | some pd, some period_min, some period_max =>
    let sma := ((WindowedSMA.mk 30).calculate closes).getD []
    let thirty_day_avg := sma.getLast?.getD 0
    some ⟨symbol, last_price, pd.2, period_min, period_max, thirty_day_avg⟩
  | _, _, _ => none

lemma stockStatsNew_isSome_spec (symbol : String) (closes : List ℚ)
    (hne : closes ≠ []) :
    ∃ st, StockStats.new symbol closes = some st ∧ st.symbol = symbol ∧
      st.thirty_day_avg =
        (((WindowedSMA.mk 30).calculate closes).getD []).getLast?.getD 0 := by
  cases closes with
  | nil => exact absurd rfl hne
  | cons x xs => exact ⟨_, rfl, rfl, rfl⟩

lemma stockStatsNew_symbol (symbol : String) (closes : List ℚ) (st : StockStats)
    (h : StockStats.new symbol closes = some st) : st.symbol = symbol := by
  cases closes with
  | nil =>
    have hnone : StockStats.new symbol [] = none := rfl
    rw [hnone] at h
    cases h
  | cons x xs =>
    obtain ⟨st2, hst2, hsym, _⟩ :=
      stockStatsNew_isSome_spec symbol (x :: xs) (by simp)
    rw [hst2] at h
    cases h
    exact hsym

/-- Claim C2 (as stated): on an empty price series `StockStats::new` builds a
record with 0.0 defaults. The code refutes this: on the empty series the
`.unwrap()` of `PriceDiff`'s `None` panics, so no record is built at all. -/
theorem stockStats_empty_counterexample :
    StockStats.new "AAPL" [] = none ∧
      ¬ ∃ st, StockStats.new "AAPL" [] = some st := by
  have h : StockStats.new "AAPL" [] = none := rfl
  refine ⟨h, ?_⟩
  rintro ⟨st, hst⟩
  rw [h] at hst
  cases hst

/-- Claim C2 (amended): `StockStats::new` aborts (panics on the unwrapped
`PriceDiff`/`MinPrice`/`MaxPrice` results) exactly when the series is empty;
only the last-price and thirty-day-average fields have defensive 0.0
fallbacks, and they never rescue the empty-series case. -/
theorem stockStats_empty_aborts (symbol : String) (closes : List ℚ) :
    StockStats.new symbol closes = none ↔ closes = [] := by
  cases closes with
  | nil =>
    constructor
    · intro _; rfl
    · intro _; rfl
  | cons x xs =>
    constructor
    · intro h
      obtain ⟨st, hst, _, _⟩ := stockStatsNew_isSome_spec symbol (x :: xs) (by simp)
      rw [hst] at h
      cases h
    · intro h
      cases h

/-- Claim C6: for every non-empty series, the `thirty_day_avg` field of the
record built by `StockStats::new` is the last element of the window-30 SMA
sequence when that sequence is non-empty, and 0 when the SMA call returned an
empty sequence or no result. -/
theorem stockStats_thirty_day_avg (symbol : String) (closes : List ℚ)
    (hne : closes ≠ []) :
    ∃ st, StockStats.new symbol closes = some st ∧
      ((∃ sma, (WindowedSMA.mk 30).calculate closes = some sma ∧ sma ≠ [] ∧
          sma.getLast? = some st.thirty_day_avg) ∨
        (((WindowedSMA.mk 30).calculate closes = none ∨
            (WindowedSMA.mk 30).calculate closes = some []) ∧
          st.thirty_day_avg = 0)) := by
  obtain ⟨st, hst, _, havg⟩ := stockStatsNew_isSome_spec symbol closes hne
  refine ⟨st, hst, ?_⟩
  have hcalc : ∃ sma, (WindowedSMA.mk 30).calculate closes = some sma := by
    unfold WindowedSMA.calculate
    rw [if_pos ⟨hne, by decide⟩]
    exact ⟨_, rfl⟩
  obtain ⟨sma, hsma⟩ := hcalc
  rw [hsma] at havg
  simp only [Option.getD_some] at havg
  cases hsl : sma.getLast? with
  | none =>
    have hnil : sma = [] := by
      cases sma with
      | nil => rfl
      | cons a as => rw [List.getLast?_eq_getLast (a :: as) (by simp)] at hsl; cases hsl
    right
    refine ⟨Or.inr (by rw [hsma, hnil]), ?_⟩
    rw [havg, hsl]
    rfl
  | some a =>
    left
    refine ⟨sma, hsma, ?_, ?_⟩
    · intro h
      rw [h] at hsl
      cases hsl
    · rw [havg, hsl]
      rfl

/-- Witness for `stockStats_thirty_day_avg` at `closes = [1, 2, 3]` (shorter
than the window, so the SMA sequence is empty and the field defaults to 0). -/
theorem stockStats_thirty_day_avg_witness :
    [(1 : ℚ), 2, 3] ≠ [] ∧
      ∃ st, StockStats.new "AAPL" [(1 : ℚ), 2, 3] = some st ∧
        ((∃ sma, (WindowedSMA.mk 30).calculate [(1 : ℚ), 2, 3] = some sma ∧
            sma ≠ [] ∧ sma.getLast? = some st.thirty_day_avg) ∨
          (((WindowedSMA.mk 30).calculate [(1 : ℚ), 2, 3] = none ∨
              (WindowedSMA.mk 30).calculate [(1 : ℚ), 2, 3] = some []) ∧
            st.thirty_day_avg = 0)) :=
  ⟨by simp, stockStats_thirty_day_avg "AAPL" [(1 : ℚ), 2, 3] (by simp)⟩

/-- `quotes.sort_by_cached_key(|q| q.timestamp)`: a stable sort ascending by
timestamp, embedded as a merge sort with the non-strict key comparison. -/
def sortByTimestamp (quotes : List Quote) : List Quote :=
  quotes.mergeSort (fun a b => decide (a.timestamp ≤ b.timestamp))

/-- `fetch_closing_data` after the provider call: every provider failure is
collapsed into one `InvalidData` error (the `Except Unit` argument); on
success, an empty quote list gives an empty series, and otherwise the quotes
are sorted by timestamp and projected to their adjusted closes. -/
def fetch_closing_data (symbol : String) (response : Except Unit (List Quote)) :
    Except Unit StockHistory :=
  match response with
  | .error e => .error e
  | .ok quotes =>
    let closes : List ℚ :=
      if quotes = [] then []
      else (sortByTimestamp quotes).map Quote.adjclose
    .ok ⟨symbol, closes⟩

/-- Claim C7: on every successful provider response `fetch_closing_data`
succeeds; zero quotes give an empty series, and otherwise the series is the
adjusted-close projection of the quotes rearranged into ascending timestamp
order, whatever order the provider returned them in. -/
theorem fetch_spec (symbol : String) (quotes : List Quote) :
    fetch_closing_data symbol (Except.ok ([] : List Quote)) =
        Except.ok ⟨symbol, []⟩ ∧
      ∃ h qs, fetch_closing_data symbol (Except.ok quotes) = Except.ok h ∧
        h.symbol = symbol ∧
        List.Perm qs quotes ∧
        List.Sorted (fun a b : Quote => a.timestamp ≤ b.timestamp) qs ∧
        h.closes = qs.map Quote.adjclose := by
  constructor
  · rfl
  · by_cases hq : quotes = []
    · subst hq
      exact ⟨⟨symbol, []⟩, [], rfl, rfl, List.Perm.refl [], List.sorted_nil, rfl⟩
    · refine ⟨⟨symbol, (sortByTimestamp quotes).map Quote.adjclose⟩,
        sortByTimestamp quotes, ?_, rfl, ?_, ?_, rfl⟩
      · simp only [fetch_closing_data]
        rw [if_neg hq]
      · exact List.mergeSort_perm quotes _
      · have hs := @List.sorted_mergeSort Quote
          (fun a b : Quote => decide (a.timestamp ≤ b.timestamp))
          (fun a b c hab hbc => by
            simp only [decide_eq_true_eq] at hab hbc ⊢
            omega)
          (fun a b => by
            rcases Nat.le_total a.timestamp b.timestamp with h | h <;> simp [h])
          quotes
        exact hs.imp (fun h => by simpa using h)

/-- The fetch-filtering step in `main`:
`stock_histories.into_iter().filter_map(|r| r.ok())`. -/
def successfulHistories (results : List (Except Unit StockHistory)) :
    List StockHistory :=
  results.filterMap fun r =>
    match r with
    | .ok h => some h
    | .error _ => none

/-- The second fan-out stage of `main`: `join_all` over
`StockStats::new(s.symbol, s.closes)` for each surviving history, in input
order; `none` models a panic in any task aborting the whole run. -/
def runStatsStage : List StockHistory → Option (List StockStats)
  | [] => some []
  | h :: rest =>
    match StockStats.new h.symbol h.closes, runStatsStage rest with
    | some st, some sts => some (st :: sts)
    | _, _ => none

/-- The header line printed by `main`. -/
def headerRow : String := "period start,symbol,price,change %,min,max,30d avg"

/-- The rendered report: the header plus one data row per statistics record,
a row being represented by the record it is formatted from. -/
structure Report where
  header : String
  rows : List StockStats
deriving DecidableEq, Repr

/-- `main` after date parsing, as a function of the per-symbol fetch results:
filter out failed fetches, run the stats stage, and render; `none` models an
abnormal termination (a panic inside `StockStats::new`). -/
def runMain (results : List (Except Unit StockHistory)) : Option Report :=
  match runStatsStage (successfulHistories results) with
  | some stats => some ⟨headerRow, stats⟩
  | none => none

lemma runStatsStage_of_nonempty :
    ∀ hs : List StockHistory, (∀ h ∈ hs, h.closes ≠ []) →
      ∃ sts, runStatsStage hs = some sts ∧
        sts.map StockStats.symbol = hs.map StockHistory.symbol := by
  intro hs
  induction hs with
  | nil => intro _; exact ⟨[], rfl, rfl⟩
  | cons h rest ih =>
    intro hne
    obtain ⟨st, hst, hsym, _⟩ :=
      stockStatsNew_isSome_spec h.symbol h.closes (hne h (by simp))
    obtain ⟨sts, hsts, hmap⟩ := ih (fun h2 hh => hne h2 (by simp [hh]))
    refine ⟨st :: sts, ?_, ?_⟩
    · simp only [runStatsStage, hst, hsts]
    · simp [hsym, hmap]

lemma runStatsStage_symbols :
    ∀ (hs : List StockHistory) (sts : List StockStats),
      runStatsStage hs = some sts →
        sts.map StockStats.symbol = hs.map StockHistory.symbol := by
  intro hs
  induction hs with
  | nil =>
    intro sts h
    simp only [runStatsStage] at h
    cases h
    rfl
  | cons hd rest ih =>
    intro sts h
    simp only [runStatsStage] at h
    cases hnew : StockStats.new hd.symbol hd.closes with
    | none =>
      simp only [hnew] at h
      exact Option.noConfusion h
    | some st =>
      cases hrest : runStatsStage rest with
      | none =>
        simp only [hnew, hrest] at h
        exact Option.noConfusion h
      | some sts2 =>
        simp only [hnew, hrest] at h
        cases h
        simp [stockStatsNew_symbol _ _ _ hnew, ih sts2 hrest]

/-- Claim C8 (as stated): a run with a failed fetch always completes with
exit 0 and a report of header plus one row per successful symbol. The code
refutes this when a fetch succeeds with zero quotes: with one failed fetch
and one successful-but-empty history, `StockStats::new` panics on the empty
series and the run aborts instead of rendering a report. -/
theorem silent_drop_counterexample :
    runMain [Except.error (), Except.ok (StockHistory.mk "A" [])] = none ∧
      ¬ ∃ rep, runMain [Except.error (), Except.ok (StockHistory.mk "A" [])] =
        some rep := by
  have h : runMain [Except.error (), Except.ok (StockHistory.mk "A" [])] =
      none := rfl
  refine ⟨h, ?_⟩
  rintro ⟨rep, hrep⟩
  rw [h] at hrep
  cases hrep

/-- Claim C8 (amended): in a run where some fetches fail and every successful
fetch returned a non-empty series, the process completes normally (exit 0),
every failed symbol is silently omitted, and the report is the header row
plus exactly one data row per successfully fetched symbol. -/
theorem silent_drop_report (results : List (Except Unit StockHistory))
    (hfail : ∃ r ∈ results, r = Except.error ())
    (hne : ∀ h ∈ successfulHistories results, h.closes ≠ []) :
    ∃ rep, runMain results = some rep ∧
      rep.header = headerRow ∧
      rep.rows.length = (successfulHistories results).length ∧
      rep.rows.map StockStats.symbol =
        (successfulHistories results).map StockHistory.symbol := by
  obtain ⟨sts, hsts, hmap⟩ :=
    runStatsStage_of_nonempty (successfulHistories results) hne
  refine ⟨⟨headerRow, sts⟩, ?_, rfl, ?_, hmap⟩
  · unfold runMain
    simp only [hsts]
  · have hlen := congrArg List.length hmap
    simpa using hlen

/-- Witness for `silent_drop_report`: one failed fetch and one successful
fetch with a one-point series. -/
theorem silent_drop_report_witness :
    (∃ r ∈ [Except.error (), Except.ok (StockHistory.mk "A" [(1 : ℚ)])],
        r = Except.error ()) ∧
      (∀ h ∈ successfulHistories
          [Except.error (), Except.ok (StockHistory.mk "A" [(1 : ℚ)])],
        h.closes ≠ []) ∧
      ∃ rep, runMain [Except.error (),
          Except.ok (StockHistory.mk "A" [(1 : ℚ)])] = some rep ∧
        rep.header = headerRow ∧
        rep.rows.length = (successfulHistories [Except.error (),
          Except.ok (StockHistory.mk "A" [(1 : ℚ)])]).length ∧
        rep.rows.map StockStats.symbol =
          (successfulHistories [Except.error (),
            Except.ok (StockHistory.mk "A" [(1 : ℚ)])]).map
            StockHistory.symbol := by
  have hfail : ∃ r ∈ [Except.error (),
      Except.ok (StockHistory.mk "A" [(1 : ℚ)])], r = Except.error () :=
    ⟨Except.error (), by simp⟩
  have hne : ∀ h ∈ successfulHistories
      [Except.error (), Except.ok (StockHistory.mk "A" [(1 : ℚ)])],
      h.closes ≠ [] := by
    intro h hh
    have : h = StockHistory.mk "A" [(1 : ℚ)] := by
      simpa [successfulHistories] using hh
    rw [this]
    simp
  exact ⟨hfail, hne, silent_drop_report _ hfail hne⟩

/-- The first fan-out stage of `main`: `join_all` over
`fetch_closing_data(s, ...)` for each symbol, in input order, with the
per-symbol provider outcome supplied alongside each symbol. -/
def fetchStage (inputs : List (String × Except Unit (List Quote))) :
    List (Except Unit StockHistory) :=
  inputs.map fun p => fetch_closing_data p.1 p.2

/-- Whether a symbol's provider outcome is a success. -/
def fetchSucceeded (p : String × Except Unit (List Quote)) : Bool :=
  match p.2 with
  | .ok _ => true
  | .error _ => false

lemma successfulHistories_fetchStage :
    ∀ inputs : List (String × Except Unit (List Quote)),
      (successfulHistories (fetchStage inputs)).map StockHistory.symbol =
        (inputs.filter fetchSucceeded).map Prod.fst := by
  intro inputs
  induction inputs with
  | nil => rfl
  | cons p rest ih =>
    obtain ⟨sym, res⟩ := p
    have ih2 := ih
    simp only [successfulHistories, fetchStage] at ih2
    cases res with
    | error e =>
      simp only [fetchStage, List.map_cons, successfulHistories,
        List.filterMap_cons, fetch_closing_data, List.filter_cons,
        fetchSucceeded]
      exact ih2
    | ok quotes =>
      simp only [fetchStage, List.map_cons, successfulHistories,
        List.filterMap_cons, fetch_closing_data, List.filter_cons,
        fetchSucceeded, List.map_cons]
      exact List.cons_eq_cons.mpr ⟨rfl, ih2⟩

/-- Claim C10: whenever the run completes and renders a report, its data rows
appear in the same relative order as the corresponding symbols in the input
list, restricted to the symbols whose fetch succeeded — the fan-out stages
preserve input order, so the output is determined by the per-symbol fetch
results alone. -/
theorem report_order (inputs : List (String × Except Unit (List Quote)))
    (hdone : (runMain (fetchStage inputs)).isSome = true) :
    ∃ rep, runMain (fetchStage inputs) = some rep ∧
      rep.rows.map StockStats.symbol =
        (inputs.filter fetchSucceeded).map Prod.fst := by
  cases hrm : runMain (fetchStage inputs) with
  | none =>
    rw [hrm] at hdone
    cases hdone
  | some rep =>
    refine ⟨rep, rfl, ?_⟩
    unfold runMain at hrm
    cases hss : runStatsStage (successfulHistories (fetchStage inputs)) with
    | none =>
      simp only [hss] at hrm
      exact Option.noConfusion hrm
    | some sts =>
      simp only [hss] at hrm
      cases hrm
      rw [runStatsStage_symbols _ _ hss]
      exact successfulHistories_fetchStage inputs

/-- Witness for `report_order`: symbols A, B, C where B's fetch fails; the
report rows are A then C, in input order. -/
theorem report_order_witness :
    ((runMain (fetchStage [("A", Except.ok [Quote.mk 1 5]),
        ("B", Except.error ()), ("C", Except.ok [Quote.mk 2 7])])).isSome =
        true) ∧
      ∃ rep, runMain (fetchStage [("A", Except.ok [Quote.mk 1 5]),
          ("B", Except.error ()), ("C", Except.ok [Quote.mk 2 7])]) =
          some rep ∧
        rep.rows.map StockStats.symbol =
          ([("A", Except.ok [Quote.mk 1 5]), ("B", Except.error ()),
            ("C", Except.ok [Quote.mk 2 7])].filter fetchSucceeded).map
            Prod.fst := by
  have hfs : fetchStage [("A", Except.ok [Quote.mk 1 5]),
      ("B", Except.error ()), ("C", Except.ok [Quote.mk 2 7])] =
      [Except.ok (StockHistory.mk "A" [5]), Except.error (),
        Except.ok (StockHistory.mk "C" [7])] := by
    simp [fetchStage, fetch_closing_data, sortByTimestamp]
  have hdone : (runMain (fetchStage [("A", Except.ok [Quote.mk 1 5]),
      ("B", Except.error ()), ("C", Except.ok [Quote.mk 2 7])])).isSome =
      true := by
    rw [hfs]
    rfl
  exact ⟨hdone, report_order _ hdone⟩
